import Mathlib

/-!
Verification of the Edge Detection & Risk Ledger core of the gamble-bot
repository: a shallow embedding in Lean 4 of the probability engine
(src/probabilities.py), the edge evaluator and stake sizer (src/engine.py)
and the exposure ledger with its reconciliation loop (src/main.py).

Numeric model: Python floats are embedded as exact rationals (ℚ); every
claim is settled under exact field arithmetic.  Python dicts keyed by bet
id are embedded as association lists with unique keys; a dict store is
modelled by removing any binding for the key and appending the new one,
which preserves lookup and the multiset of stored records.  A Python
division is total in the embedding except where a probability enumeration
divides by a remaining-card total: there the embedding returns `none`
whenever a conditional fraction would be taken with a zero remaining
total (a ZeroDivisionError in the source), so that a `some` result
witnesses that no such division happened.
-/

namespace GambleBot

/-- Embeds models.MarketSelection (src/models.py). -/
structure MarketSelection where
  selection_id : String
  name : String
  status : String
  best_back_price : Option ℚ
  best_lay_price : Option ℚ
deriving DecidableEq, Repr

/-- Embeds models.Opportunity (src/models.py). -/
structure Opportunity where
  selection : MarketSelection
  true_prob : ℚ
  market_price : ℚ
  edge : ℚ
  action : String
  stake : ℚ
deriving DecidableEq, Repr

/-- Embeds models.ShoeState (src/models.py); card_counts is the dict
access pattern card_counts.get(r, 0), a total function on ranks. -/
structure ShoeState where
  cards_dealt : ℕ
  cards_remaining : ℕ
  card_counts : ℕ → ℕ

/-- Embeds engine.COMMISSION (src/engine.py). -/
def COMMISSION : ℚ := 0.025

/-- Embeds engine.MIN_EDGE (src/engine.py). -/
def MIN_EDGE : ℚ := 0.05

/-- Embeds engine.evaluate (src/engine.py).  The selection argument is
unused by the source body and kept for signature fidelity. -/
def evaluate (_selection : MarketSelection) (true_prob market_price : ℚ)
    (action : String) (min_edge : ℚ) : Bool × ℚ :=
  let implied_prob := 1 / market_price
  if action = "BACK" then
    let edge := true_prob - implied_prob - COMMISSION
    (decide (edge > min_edge), edge)
  else if action = "LAY" then
    let edge := implied_prob - true_prob - COMMISSION
    (decide (edge > min_edge), edge)
  else (false, 0)

/-- Embeds engine.calculate_dynamic_max_stake_pct (src/engine.py). -/
def calculate_dynamic_max_stake_pct (balance : ℚ) : ℚ :=
  if balance < 100 then 0.03
  else if balance < 200 then 0.04
  else 0.05

/-- The proportional branch of engine.size_stake (src/engine.py),
extracted so that the kelly fallback, which the source writes as the
tail call size_stake(balance, max_exposure_pct, edge,
strategy='proportional') with the default max_stake_pct=0.10, can be
expressed without recursion.  cap and max_single_stake are recomputed
exactly as the source recomputes them on the recursive call. -/
def size_stake_proportional (balance max_exposure_pct edge max_stake_pct : ℚ) : ℚ :=
  let cap := balance * max_exposure_pct
  let max_single_stake := balance * max_stake_pct
  if edge ≤ 0 then 0
  else
    let scale := min 1 (edge / 0.1)
    min (balance * max_exposure_pct * scale) (min cap max_single_stake)

/-- Embeds engine.size_stake (src/engine.py).  Optional price and
true_prob are None-able Python arguments; strategy is the string
argument with source default 'kelly'.  The kelly fallback for missing
price or true_prob re-enters with strategy='proportional' and the
DEFAULT max_stake_pct=0.10 (not the caller's max_stake_pct), which
size_stake_proportional reproduces. -/
def size_stake (balance max_exposure_pct edge : ℚ) (price true_prob : Option ℚ)
    (strategy : String) (shrink max_stake_pct : ℚ) : ℚ :=
  let cap := balance * max_exposure_pct
  let max_single_stake := balance * max_stake_pct
  if strategy = "kelly" then
    match price, true_prob with
    | some pr, some tp =>
      let b := max 0 (pr - 1)
      if b ≤ 0 then 0
      else
        let q := 1 - tp
        let f := max 0 ((b * tp - q) / b) * shrink
        let stake := balance * f
        min stake (min cap max_single_stake)
    | _, _ => size_stake_proportional balance max_exposure_pct edge 0.10
  else size_stake_proportional balance max_exposure_pct edge max_stake_pct

/-- An entry of BetManager.active_bets (src/main.py line 83): the dict
value {'opp': opp, 'stake': stake, 'price': opp.market_price}. -/
structure BetRecordEntry where
  opp : Opportunity
  stake : ℚ
  price : ℚ
deriving DecidableEq, Repr

/-- A trade_history row {'bet_id': .., 'profit': .., 'balance': ..}
(src/main.py lines 102 and 146). -/
structure TradeRow where
  bet_id : String
  profit : ℚ
  balance : ℚ
deriving DecidableEq, Repr

/-- Embeds the state of main.BetManager (src/main.py lines 69-76). -/
structure BetManager where
  balance : ℚ
  max_exposure : ℚ
  current_exposure : ℚ
  active_bets : List (String × BetRecordEntry)
  pnl : ℚ
  trade_history : List TradeRow
deriving DecidableEq, Repr

/-- BetManager.__init__ (src/main.py lines 70-76). -/
def BetManager.init (balance max_exposure : ℚ) : BetManager :=
  { balance := balance
  , max_exposure := max_exposure
  , current_exposure := 0
  , active_bets := []
  , pnl := 0
  , trade_history := [] }

/-- Dict lookup self.active_bets.get / pop probe (first binding for the
key; bindings are kept unique). -/
def lookupBet (bets : List (String × BetRecordEntry)) (k : String) : Option BetRecordEntry :=
  match bets with
  | [] => none
  | (k2, v) :: rest => if k2 = k then some v else lookupBet rest k

/-- Dict key removal, as performed by self.active_bets.pop(bet_id). -/
def removeBet (bets : List (String × BetRecordEntry)) (k : String) : List (String × BetRecordEntry) :=
  bets.filter (fun p => p.1 ≠ k)

/-- Dict store self.active_bets[bet_id] = {...}: any existing binding is
replaced. -/
def insertBet (bets : List (String × BetRecordEntry)) (k : String) (v : BetRecordEntry) :
    List (String × BetRecordEntry) :=
  removeBet bets k ++ [(k, v)]

/-- Embeds BetManager.can_place (src/main.py lines 78-79). -/
def BetManager.can_place (m : BetManager) (stake : ℚ) : Bool :=
  decide ((m.current_exposure + stake) ≤ m.max_exposure) && decide (stake ≤ m.balance)

/-- Embeds BetManager.record_accepted (src/main.py lines 81-86). -/
def BetManager.record_accepted (m : BetManager) (bet_id : String) (opp : Opportunity) : BetManager :=
  { m with
    active_bets := insertBet m.active_bets bet_id ⟨opp, opp.stake, opp.market_price⟩
    balance := m.balance - opp.stake
    current_exposure := m.current_exposure + opp.stake }

/-- Embeds BetManager.process_settlement (src/main.py lines 88-113);
returns the Optional[float] profit together with the mutated manager.
The metrics side effects of the source are I/O only and not modelled. -/
def BetManager.process_settlement (m : BetManager) (bet_id status : String) (payout : ℚ) :
    Option ℚ × BetManager :=
  match lookupBet m.active_bets bet_id with
  | none => (none, m)
  | some r =>
    let bets := removeBet m.active_bets bet_id
    let stake := r.stake
    let bp : ℚ × ℚ :=
      if status = "WON" then (m.balance + stake + payout, payout)
      else (m.balance, -stake)
    (some bp.2,
     { m with
       active_bets := bets
       balance := bp.1
       current_exposure := max 0 (m.current_exposure - stake)
       pnl := m.pnl + bp.2
       trade_history := m.trade_history ++ [⟨bet_id, bp.2, bp.1⟩] })

/-- A cleared order dict from the Exchange API as read by
BetManager.process_cleared_order and reconcile_cleared_orders
(src/main.py): fields are None-able; settledDate is an abstract
timestamp (the source parses an ISO string; only its ordering is used). -/
structure ClearedOrder where
  betId : String
  betOutcome : Option String
  status : Option String
  profit : Option ℚ
  commissionPaid : Option ℚ
  settledDate : Option ℕ
deriving DecidableEq, Repr

/-- The Python expression cleared.get('betOutcome') or
cleared.get('status') (src/main.py line 132): a falsy betOutcome (absent
key or empty string) falls through to status. -/
def clearedOutcome (c : ClearedOrder) : Option String :=
  match c.betOutcome with
  | some s => if s = "" then c.status else some s
  | none => c.status

/-- Embeds BetManager.process_cleared_order (src/main.py lines 115-147).
commissionPaid defaulting follows float(cleared.get('commissionPaid',
0.0) or 0.0); the commission branch mirrors the source's `if
commission:` truthiness test. -/
def BetManager.process_cleared_order (m : BetManager) (c : ClearedOrder) :
    Option ℚ × BetManager :=
  match lookupBet m.active_bets c.betId with
  | none => (none, m)
  | some r =>
    let bets := removeBet m.active_bets c.betId
    let stake := r.stake
    let price := r.price
    let pb : ℚ × ℚ :=
      match c.profit with
      | some p => (p, m.balance + stake + p)
      | none =>
        if clearedOutcome c = some "WON" then
          let payout := stake * (price - 1)
          (payout, m.balance + stake + payout)
        else (-stake, m.balance)
    let commission := c.commissionPaid.getD 0
    let pb2 : ℚ × ℚ :=
      if commission ≠ 0 then (pb.1 - commission, pb.2 - commission) else pb
    (some pb2.1,
     { m with
       active_bets := bets
       balance := pb2.2
       current_exposure := max 0 (m.current_exposure - stake)
       pnl := m.pnl + pb2.1
       trade_history := m.trade_history ++ [⟨c.betId, pb2.1, pb2.2⟩] })

/-- One ledger mutation of the BetManager state machine: a bet
acceptance, a direct settlement, or a cleared order from the
reconciliation feed (src/main.py lines 81-147). -/
inductive LedgerOp where
  | accept (bet_id : String) (opp : Opportunity)
  | settle (bet_id status : String) (payout : ℚ)
  | clear (c : ClearedOrder)
deriving DecidableEq

/-- Apply one ledger operation, discarding the returned profit. -/
def applyOp (m : BetManager) : LedgerOp → BetManager
  | .accept bet_id opp => m.record_accepted bet_id opp
  | .settle bet_id status payout => (m.process_settlement bet_id status payout).2
  | .clear c => (m.process_cleared_order c).2

/-- Apply a sequence of ledger operations in order. -/
def applyOps (m : BetManager) (ops : List LedgerOp) : BetManager :=
  ops.foldl applyOp m

/-- Sum of the stakes of the stored bet records. -/
def stakesSum (bets : List (String × BetRecordEntry)) : ℚ :=
  (bets.map (fun p => p.2.stake)).sum

/-- The spec's exposure invariant: current_exposure equals the sum of
the stakes of the currently-active bet records. -/
def exposureInv (m : BetManager) : Prop :=
  m.current_exposure = stakesSum m.active_bets

instance (m : BetManager) : Decidable (exposureInv m) := by
  unfold exposureInv; infer_instance

/-- A run is safe when every record_accepted call uses a bet id that is
not currently active and a non-negative stake, evaluated against the
state reached when the call happens. -/
def SafeRun : BetManager → List LedgerOp → Prop
  | _, [] => True
  | m, op :: ops =>
    (match op with
     | .accept bet_id opp => lookupBet m.active_bets bet_id = none ∧ 0 ≤ opp.stake
     | _ => True) ∧ SafeRun (applyOp m op) ops

instance instDecidableSafeRun : (m : BetManager) → (ops : List LedgerOp) → Decidable (SafeRun m ops)
  | _, [] => isTrue trivial
  | m, op :: ops =>
    have d1 : Decidable (match op with
       | .accept bet_id opp => lookupBet m.active_bets bet_id = none ∧ 0 ≤ opp.stake
       | _ => True) := by cases op <;> infer_instance
    have d2 : Decidable (SafeRun (applyOp m op) ops) := instDecidableSafeRun _ _
    instDecidableAnd

/-- An operation whose accepted stake (if it is an acceptance) is
non-negative. -/
def acceptNonneg : LedgerOp → Prop
  | .accept _ opp => 0 ≤ opp.stake
  | _ => True

instance (op : LedgerOp) : Decidable (acceptNonneg op) := by
  cases op <;> (unfold acceptNonneg; infer_instance)

/-- The persisted reconciliation state {'last_cleared_timestamp': ...,
'processed_bet_ids': [...]} (src/state.py, src/main.py lines 150-267);
timestamps are abstract (only their ordering is used by the source). -/
structure RecState where
  last_cleared_timestamp : Option ℕ
  processed_bet_ids : List String
deriving DecidableEq, Repr

/-- The loop body of reconcile_cleared_orders (src/main.py lines
200-256) acting on (bet manager, processed id list, max settled
timestamp seen): an order whose id is already processed is skipped;
otherwise it is applied to the ledger, its id appended, and the maximum
settled timestamp updated.  The processed set of the source always holds
exactly the members of the processed list, so membership is tested on
the list. -/
def reconcileStep (acc : BetManager × List String × Option ℕ) (c : ClearedOrder) :
    BetManager × List String × Option ℕ :=
  if c.betId ∈ acc.2.1 then acc
  else
    let bm := (acc.1.process_cleared_order c).2
    let pl := acc.2.1 ++ [c.betId]
    let mts :=
      match c.settledDate with
      | none => acc.2.2
      | some t =>
        match acc.2.2 with
        | none => some t
        | some t0 => if t0 < t then some t else some t0
    (bm, pl, mts)

/-- Embeds the pure core of reconcile_cleared_orders (src/main.py lines
150-267): fold the feed's cleared-order batch through reconcileStep,
then trim processed_bet_ids to the most recent max_processed entries
(when max_processed is truthy) and advance the cursor to the maximum
settled timestamp seen, if any.  The transport query, CSV audit rows,
metrics and the state-file write are I/O and out of the embedding. -/
def reconcileOrders (orders : List ClearedOrder) (m : BetManager) (st : RecState)
    (max_processed : ℕ) : BetManager × RecState :=
  let r := orders.foldl reconcileStep (m, st.processed_bet_ids, none)
  let pl :=
    if 0 < max_processed ∧ max_processed < r.2.1.length then
      r.2.1.drop (r.2.1.length - max_processed)
    else r.2.1
  let ts :=
    match r.2.2 with
    | none => st.last_cleared_timestamp
    | some t => some t
  (r.1, ⟨ts, pl⟩)

/-- Embeds probabilities.card_value (src/probabilities.py lines 11-17). -/
def card_value (rank : ℕ) : ℕ :=
  if rank = 1 then 1
  else if 2 ≤ rank ∧ rank ≤ 9 then rank
  else 0

/-- The ranks 1..13 that every enumeration loop ranges over
(range(1, 14) in src/probabilities.py). -/
def ranks : List ℕ := List.range' 1 13

/-- Decrement of one rank's remaining count (counts1[r1] -= 1 on a
dict copy). -/
def decCount (counts : ℕ → ℕ) (r : ℕ) : ℕ → ℕ :=
  fun x => if x = r then counts r - 1 else counts x

/-- One nested loop level of the probability enumerations
(src/probabilities.py): iterate the remaining ranks rs; skip a rank with
zero remaining count; otherwise take the conditional fraction count/n —
returning none when the remaining total n is 0, where the source would
divide by a non-positive total — weight the deeper enumeration `next`
on the decremented shoe, and continue the loop. -/
def enumLevel (next : (ℕ → ℕ) → ℕ → List ℕ → Option ℚ) :
    List ℕ → (ℕ → ℕ) → ℕ → List ℕ → Option ℚ
  | [], _, _, _ => some 0
  | r :: rs, counts, n, picked =>
    if counts r = 0 then enumLevel next rs counts n picked
    else if n = 0 then none
    else
      match next (decCount counts r) (n - 1) (picked ++ [r]) with
      | none => none
      | some sub =>
        match enumLevel next rs counts n picked with
        | none => none
        | some rest => some ((counts r : ℚ) / (n : ℚ) * sub + rest)

/-- The d-deep nested enumeration of src/probabilities.py: at depth 0
the event predicate is evaluated on the drawn ranks (contributing weight
1 or 0, which the enclosing levels multiply by the sequential draw
fractions exactly as the source multiplies p1*p2*p3*p4); at depth d+1
one loop level runs over all of ranks. -/
def enumAux (pred : List ℕ → Bool) : ℕ → (ℕ → ℕ) → ℕ → List ℕ → Option ℚ
  | 0 => fun _ _ picked => some (if pred picked then 1 else 0)
  | d + 1 => fun counts n picked => enumLevel (enumAux pred d) ranks counts n picked

/-- Event predicate of prob_pocket_pair (src/probabilities.py line 51):
Player holds r1 and r3, Banker holds r2 and r4. -/
def pocketPairPred (l : List ℕ) : Bool :=
  match l with
  | [r1, r2, r3, r4] => r1 == r3 || r2 == r4
  | _ => false

/-- Event predicate of prob_natural_win (src/probabilities.py lines
87-89). -/
def naturalWinPred (l : List ℕ) : Bool :=
  match l with
  | [r1, r2, r3, r4] =>
    let player_val := (card_value r1 + card_value r3) % 10
    let banker_val := (card_value r2 + card_value r4) % 10
    (player_val == 8 || player_val == 9) || (banker_val == 8 || banker_val == 9)
  | _ => false

/-- Event predicate of prob_natural_tie (src/probabilities.py lines
124-126). -/
def naturalTiePred (l : List ℕ) : Bool :=
  match l with
  | [r1, r2, r3, r4] =>
    let player_val := (card_value r1 + card_value r3) % 10
    let banker_val := (card_value r2 + card_value r4) % 10
    (player_val == 8 || player_val == 9) && player_val == banker_val
  | _ => false

/-- Event predicate of prob_highest_hand_nine (src/probabilities.py
lines 161-163). -/
def highestNinePred (l : List ℕ) : Bool :=
  match l with
  | [r1, r2, r3, r4] =>
    let player_val := (card_value r1 + card_value r3) % 10
    let banker_val := (card_value r2 + card_value r4) % 10
    max player_val banker_val == 9
  | _ => false

/-- Event predicate of prob_highest_hand_odd (src/probabilities.py
lines 198-200). -/
def highestOddPred (l : List ℕ) : Bool :=
  match l with
  | [r1, r2, r3, r4] =>
    let player_val := (card_value r1 + card_value r3) % 10
    let banker_val := (card_value r2 + card_value r4) % 10
    (max player_val banker_val) % 2 == 1
  | _ => false

/-- Embeds prob_pocket_pair (src/probabilities.py lines 20-54). -/
def prob_pocket_pair (shoe : ShoeState) : Option ℚ :=
  enumAux pocketPairPred 4 shoe.card_counts shoe.cards_remaining []

/-- Embeds prob_natural_win (src/probabilities.py lines 57-91). -/
def prob_natural_win (shoe : ShoeState) : Option ℚ :=
  enumAux naturalWinPred 4 shoe.card_counts shoe.cards_remaining []

/-- Embeds prob_natural_tie (src/probabilities.py lines 94-128). -/
def prob_natural_tie (shoe : ShoeState) : Option ℚ :=
  enumAux naturalTiePred 4 shoe.card_counts shoe.cards_remaining []

/-- Embeds prob_highest_hand_nine (src/probabilities.py lines 131-165). -/
def prob_highest_hand_nine (shoe : ShoeState) : Option ℚ :=
  enumAux highestNinePred 4 shoe.card_counts shoe.cards_remaining []

/-- Embeds prob_highest_hand_odd (src/probabilities.py lines 168-202). -/
def prob_highest_hand_odd (shoe : ShoeState) : Option ℚ :=
  enumAux highestOddPred 4 shoe.card_counts shoe.cards_remaining []

/-- Sum of the remaining counts over the thirteen ranks. -/
def countsSum (counts : ℕ → ℕ) : ℕ :=
  (ranks.map counts).sum

/-- A concrete selection used by witnesses. -/
def sampleSel : MarketSelection :=
  ⟨"1", "Pocket Pair In Any Hand", "IN_PLAY", some 5, some 6⟩

/-- A concrete opportunity with integer stake 10 at price 5, used by
witnesses. -/
def sampleOpp : Opportunity := ⟨sampleSel, 0, 5, 0, "BACK", 10⟩

/-- A concrete manager holding one active bet "a" of stake 10 at price
5, used by witnesses. -/
def sampleManager : BetManager :=
  { balance := 90
  , max_exposure := 100
  , current_exposure := 10
  , active_bets := [("a", ⟨sampleOpp, 10, 5⟩)]
  , pnl := 0
  , trade_history := [] }

/-- A concrete cleared order for bet "a" with explicit profit, used by
witnesses. -/
def sampleCleared : ClearedOrder :=
  ⟨"a", some "WON", none, some 40, none, some 7⟩

lemma size_stake_proportional_cap (balance mep edge msp2 : ℚ)
    (hb : 0 ≤ balance) (h1 : 0 ≤ mep) (h2 : mep ≤ 1) (h3 : 0 ≤ msp2) :
    size_stake_proportional balance mep edge msp2 ≤
      min balance (min (balance * mep) (balance * msp2)) := by
  have hcap : balance * mep ≤ balance := by
    calc balance * mep ≤ balance * 1 := by
          exact mul_le_mul_of_nonneg_left h2 hb
      _ = balance := mul_one balance
  unfold size_stake_proportional
  by_cases he : edge ≤ 0
  · simp only [he, if_true]
    refine le_min hb (le_min ?_ ?_)
    · exact mul_nonneg hb h1
    · exact mul_nonneg hb h3
  · simp only [he, if_false]
    refine le_min ?_ (le_min ?_ ?_)
    · exact le_trans (le_trans (min_le_right _ _) (min_le_left _ _)) hcap
    · exact le_trans (min_le_right _ _) (min_le_left _ _)
    · exact le_trans (min_le_right _ _) (min_le_right _ _)

lemma size_stake_kelly_cap (balance mep edge : ℚ) (pr tp : ℚ)
    (strategy : String) (shrink msp : ℚ)
    (hs : strategy = "kelly")
    (hb : 0 ≤ balance) (h1 : 0 ≤ mep) (h2 : mep ≤ 1) (h3 : 0 ≤ msp) :
    size_stake balance mep edge (some pr) (some tp) strategy shrink msp ≤
      min balance (min (balance * mep) (balance * msp)) := by
  have hcap : balance * mep ≤ balance := by
    calc balance * mep ≤ balance * 1 := by
          exact mul_le_mul_of_nonneg_left h2 hb
      _ = balance := mul_one balance
  unfold size_stake
  simp only [hs, if_true]
  by_cases hbz : max 0 (pr - 1) ≤ 0
  · simp only [hbz, if_true]
    refine le_min hb (le_min ?_ ?_)
    · exact mul_nonneg hb h1
    · exact mul_nonneg hb h3
  · simp only [hbz, if_false]
    refine le_min ?_ (le_min ?_ ?_)
    · exact le_trans (le_trans (min_le_right _ _) (min_le_left _ _)) hcap
    · exact le_trans (min_le_right _ _) (min_le_left _ _)
    · exact le_trans (min_le_right _ _) (min_le_right _ _)

/-- The max-stake percentage that size_stake actually enforces: the
caller's max_stake_pct, except on the kelly fallback for a missing
price or true probability, where the re-entrant call uses the source's
default max_stake_pct=0.10. -/
def effective_max_stake_pct (price true_prob : Option ℚ) (strategy : String) (msp : ℚ) : ℚ :=
  if strategy = "kelly" ∧ (price = none ∨ true_prob = none) then 0.10 else msp

/-- C3 counterexample: at the valid input balance=1000,
max_exposure_pct=1, edge=1, absent price and true_prob, strategy kelly,
max_stake_pct=0 the returned stake is 100, which exceeds
min(balance, balance*max_exposure_pct, balance*max_stake_pct) = 0: the
kelly fallback path does not use the max_stake_pct passed by the
caller. -/
theorem stake_cap_cex :
    (0:ℚ) ≤ 1000 ∧ (0:ℚ) ≤ 1 ∧ (1:ℚ) ≤ 1 ∧ (0:ℚ) ≤ 0 ∧ (0:ℚ) ≤ 1 ∧
    size_stake 1000 1 1 none none "kelly" 1 0 = 100 ∧
    ¬ size_stake 1000 1 1 none none "kelly" 1 0 ≤
        min 1000 (min (1000 * 1) (1000 * 0)) := by
  refine ⟨by norm_num, by norm_num, le_refl 1, le_refl 0, by norm_num, ?_, ?_⟩
  · unfold size_stake size_stake_proportional
    norm_num
  · unfold size_stake size_stake_proportional
    norm_num

/-- C3 (amended): for all valid inputs (balance ≥ 0, percentages in
[0,1], either strategy, any combination of present or absent price and
true_prob), size_stake returns a stake at most
min(balance, balance*max_exposure_pct, balance*p) where p is the
caller's max_stake_pct on every path except the kelly fallback for a
missing price or true probability, on which p is the source's default
max_stake_pct of 0.10 (effective_max_stake_pct). -/
theorem stake_cap_amended (balance mep edge : ℚ) (price true_prob : Option ℚ)
    (strategy : String) (shrink msp : ℚ)
    (hb : 0 ≤ balance) (h1 : 0 ≤ mep) (h2 : mep ≤ 1) (h3 : 0 ≤ msp) (_h4 : msp ≤ 1) :
    size_stake balance mep edge price true_prob strategy shrink msp ≤
      min balance (min (balance * mep)
        (balance * effective_max_stake_pct price true_prob strategy msp)) := by
  by_cases hs : strategy = "kelly"
  · cases price with
    | none =>
      have : size_stake balance mep edge none true_prob strategy shrink msp =
          size_stake_proportional balance mep edge 0.10 := by
        unfold size_stake
        simp only [hs, if_true]
      rw [this]
      have heff : effective_max_stake_pct none true_prob strategy msp = 0.10 := by
        unfold effective_max_stake_pct
        simp [hs]
      rw [heff]
      exact size_stake_proportional_cap balance mep edge 0.10 hb h1 h2 (by norm_num)
    | some pr =>
      cases true_prob with
      | none =>
        have : size_stake balance mep edge (some pr) none strategy shrink msp =
            size_stake_proportional balance mep edge 0.10 := by
          unfold size_stake
          simp only [hs, if_true]
        rw [this]
        have heff : effective_max_stake_pct (some pr) none strategy msp = 0.10 := by
          unfold effective_max_stake_pct
          simp [hs]
        rw [heff]
        exact size_stake_proportional_cap balance mep edge 0.10 hb h1 h2 (by norm_num)
      | some tp =>
        have heff : effective_max_stake_pct (some pr) (some tp) strategy msp = msp := by
          unfold effective_max_stake_pct
          simp
        rw [heff]
        exact size_stake_kelly_cap balance mep edge pr tp strategy shrink msp hs hb h1 h2 h3
  · have : size_stake balance mep edge price true_prob strategy shrink msp =
        size_stake_proportional balance mep edge msp := by
      unfold size_stake
      simp only [hs, if_false]
    rw [this]
    have heff : effective_max_stake_pct price true_prob strategy msp = msp := by
      unfold effective_max_stake_pct
      simp [hs]
    rw [heff]
    exact size_stake_proportional_cap balance mep edge msp hb h1 h2 h3

/-- C3 witness: the amended cap theorem applied at the concrete valid
input balance=1000, max_exposure_pct=0, edge=0, kelly with absent
inputs, max_stake_pct=0. -/
theorem stake_cap_amended_witness :
    (0:ℚ) ≤ 1000 ∧ (0:ℚ) ≤ 0 ∧ (0:ℚ) ≤ 1 ∧
    size_stake 1000 0 0 none none "kelly" 0 0 ≤
      min 1000 (min (1000 * 0)
        (1000 * effective_max_stake_pct none none "kelly" 0)) :=
  ⟨by decide, le_refl 0, by decide,
   stake_cap_amended 1000 0 0 none none "kelly" 0 0
     (by decide) (le_refl 0) (by decide) (le_refl 0) (by decide)⟩

/-- C8: for every true_prob and every market_price > 0, evaluate
returns edge true_prob - 1/market_price - 0.025 for BACK and
1/market_price - true_prob - 0.025 for LAY, qualifying exactly when the
edge exceeds min_edge, and returns (false, 0) for every other action
value. -/
theorem evaluate_formulas (sel : MarketSelection) (tp mp me : ℚ) (_hmp : 0 < mp) :
    ((evaluate sel tp mp "BACK" me).2 = tp - 1 / mp - 0.025) ∧
    ((evaluate sel tp mp "BACK" me).1 = true ↔ me < tp - 1 / mp - 0.025) ∧
    ((evaluate sel tp mp "LAY" me).2 = 1 / mp - tp - 0.025) ∧
    ((evaluate sel tp mp "LAY" me).1 = true ↔ me < 1 / mp - tp - 0.025) ∧
    (∀ a : String, a ≠ "BACK" → a ≠ "LAY" → evaluate sel tp mp a me = (false, 0)) := by
  refine ⟨?_, ?_, ?_, ?_, ?_⟩
  · simp [evaluate, COMMISSION]
  · simp [evaluate, COMMISSION, gt_iff_lt]
  · simp [evaluate, COMMISSION]
  · simp [evaluate, COMMISSION, gt_iff_lt]
  · intro a ha hb
    simp [evaluate, ha, hb]

/-- C8 witness: the formula theorem applied at the concrete market
price 5 > 0. -/
theorem evaluate_formulas_witness :
    (0:ℚ) < 5 ∧ ((evaluate sampleSel (3/10) 5 "BACK" (1/20)).2 = 3/10 - 1/5 - 0.025) :=
  ⟨by decide, (evaluate_formulas sampleSel (3/10) 5 (1/20) (by decide)).1⟩

/-- The bet ids currently bound in the store. -/
def betKeys (bets : List (String × BetRecordEntry)) : List String :=
  bets.map Prod.fst

lemma lookupBet_eq_none_iff (bets : List (String × BetRecordEntry)) (k : String) :
    lookupBet bets k = none ↔ k ∉ betKeys bets := by
  induction bets with
  | nil => simp [lookupBet, betKeys]
  | cons p rest ih =>
    obtain ⟨k2, v⟩ := p
    by_cases h : k2 = k
    · simp [lookupBet, betKeys, h]
    · simp [lookupBet, betKeys, h, ih]
      tauto

lemma removeBet_cons (p : String × BetRecordEntry) (rest : List (String × BetRecordEntry))
    (k : String) :
    removeBet (p :: rest) k =
      if p.1 = k then removeBet rest k else p :: removeBet rest k := by
  simp only [removeBet, List.filter_cons]
  by_cases h : p.1 = k
  · simp [h]
  · simp [h]

lemma stakesSum_cons (p : String × BetRecordEntry) (rest : List (String × BetRecordEntry)) :
    stakesSum (p :: rest) = p.2.stake + stakesSum rest := by
  simp [stakesSum]

lemma removeBet_of_not_mem (bets : List (String × BetRecordEntry)) (k : String)
    (h : k ∉ betKeys bets) : removeBet bets k = bets := by
  induction bets with
  | nil => rfl
  | cons p rest ih =>
    simp only [betKeys, List.map_cons, List.mem_cons] at h
    push_neg at h
    have hp : ¬ p.1 = k := fun hc => h.1 hc.symm
    rw [removeBet_cons, if_neg hp, ih (by simpa [betKeys] using h.2)]

lemma not_mem_betKeys_removeBet (bets : List (String × BetRecordEntry)) (k : String) :
    k ∉ betKeys (removeBet bets k) := by
  induction bets with
  | nil => simp [removeBet, betKeys]
  | cons p rest ih =>
    rw [removeBet_cons]
    by_cases h : p.1 = k
    · simpa [h] using ih
    · simp only [h, if_false, betKeys, List.map_cons, List.mem_cons]
      push_neg
      exact ⟨fun hc => h hc.symm, by simpa [betKeys] using ih⟩

lemma lookupBet_removeBet (bets : List (String × BetRecordEntry)) (k : String) :
    lookupBet (removeBet bets k) k = none :=
  (lookupBet_eq_none_iff _ _).mpr (not_mem_betKeys_removeBet bets k)

lemma lookupBet_mem (bets : List (String × BetRecordEntry)) (k : String)
    (r : BetRecordEntry) (h : lookupBet bets k = some r) : (k, r) ∈ bets := by
  induction bets with
  | nil => simp [lookupBet] at h
  | cons p rest ih =>
    obtain ⟨k2, v⟩ := p
    by_cases hk : k2 = k
    · simp only [lookupBet, hk, if_true, Option.some.injEq] at h
      subst hk h
      exact List.mem_cons_self _ _
    · simp only [lookupBet, hk, if_false] at h
      exact List.mem_cons_of_mem _ (ih h)

lemma stakesSum_append (a b : List (String × BetRecordEntry)) :
    stakesSum (a ++ b) = stakesSum a + stakesSum b := by
  simp [stakesSum]

lemma stakesSum_nonneg (bets : List (String × BetRecordEntry))
    (h : ∀ p ∈ bets, 0 ≤ p.2.stake) : 0 ≤ stakesSum bets := by
  induction bets with
  | nil => simp [stakesSum]
  | cons p rest ih =>
    rw [stakesSum_cons]
    have h1 := h p (List.mem_cons_self _ _)
    have h2 := ih fun q hq => h q (List.mem_cons_of_mem _ hq)
    linarith

lemma stakesSum_removeBet_le (bets : List (String × BetRecordEntry)) (k : String)
    (h : ∀ p ∈ bets, 0 ≤ p.2.stake) :
    stakesSum (removeBet bets k) ≤ stakesSum bets := by
  induction bets with
  | nil => simp [removeBet, stakesSum]
  | cons p rest ih =>
    have h1 := h p (List.mem_cons_self _ _)
    have h2 := ih fun q hq => h q (List.mem_cons_of_mem _ hq)
    rw [removeBet_cons]
    by_cases hp : p.1 = k
    · rw [if_pos hp, stakesSum_cons]
      linarith
    · rw [if_neg hp, stakesSum_cons, stakesSum_cons]
      linarith

lemma stakesSum_removeBet_eq (bets : List (String × BetRecordEntry)) (k : String)
    (r : BetRecordEntry) (hnd : (betKeys bets).Nodup)
    (h : lookupBet bets k = some r) :
    stakesSum bets = stakesSum (removeBet bets k) + r.stake := by
  induction bets with
  | nil => simp [lookupBet] at h
  | cons p rest ih =>
    obtain ⟨k2, v⟩ := p
    simp only [betKeys, List.map_cons, List.nodup_cons] at hnd
    by_cases hk : k2 = k
    · simp only [lookupBet, hk, if_true, Option.some.injEq] at h
      subst hk h
      rw [removeBet_cons, if_pos rfl,
        removeBet_of_not_mem rest k2 (by simpa [betKeys] using hnd.1), stakesSum_cons]
      ring
    · simp only [lookupBet, hk, if_false] at h
      have := ih hnd.2 h
      rw [removeBet_cons, if_neg hk, stakesSum_cons, stakesSum_cons, this]
      ring

lemma stake_le_stakesSum (bets : List (String × BetRecordEntry)) (k : String)
    (r : BetRecordEntry) (hmem : (k, r) ∈ bets)
    (h : ∀ p ∈ bets, 0 ≤ p.2.stake) : r.stake ≤ stakesSum bets := by
  induction bets with
  | nil => simp at hmem
  | cons p rest ih =>
    have h1 := h p (List.mem_cons_self _ _)
    have hrest := fun q hq => h q (List.mem_cons_of_mem _ hq)
    rw [stakesSum_cons]
    rcases List.mem_cons.mp hmem with hc | hc
    · have := stakesSum_nonneg rest hrest
      rw [← hc]
      linarith
    · have := ih hc hrest
      linarith

lemma betKeys_removeBet_sublist (bets : List (String × BetRecordEntry)) (k : String) :
    (betKeys (removeBet bets k)).Sublist (betKeys bets) :=
  List.Sublist.map Prod.fst (List.filter_sublist bets)

lemma nodup_betKeys_insertBet (bets : List (String × BetRecordEntry)) (k : String)
    (v : BetRecordEntry) (hnd : (betKeys bets).Nodup) :
    (betKeys (insertBet bets k v)).Nodup := by
  have h1 : (betKeys (removeBet bets k)).Nodup :=
    (betKeys_removeBet_sublist bets k).nodup hnd
  have h2 : k ∉ betKeys (removeBet bets k) := not_mem_betKeys_removeBet bets k
  simp only [insertBet, betKeys, List.map_append, List.map_cons, List.map_nil]
  rw [List.nodup_append]
  refine ⟨h1, List.nodup_singleton k, ?_⟩
  intro a ha
  simp only [List.mem_singleton]
  intro hc
  subst hc
  exact h2 ha

lemma mem_insertBet (bets : List (String × BetRecordEntry)) (k : String)
    (v : BetRecordEntry) (p : String × BetRecordEntry)
    (hp : p ∈ insertBet bets k v) : p ∈ bets ∨ p = (k, v) := by
  simp only [insertBet, List.mem_append, List.mem_singleton] at hp
  rcases hp with hp | hp
  · left
    exact List.mem_of_mem_filter hp
  · right
    exact hp

lemma mem_removeBet (bets : List (String × BetRecordEntry)) (k : String)
    (p : String × BetRecordEntry) (hp : p ∈ removeBet bets k) : p ∈ bets :=
  List.mem_of_mem_filter hp

/-- A concrete opportunity with a negative stake, used to exhibit what
unrestricted arguments do to the ledger invariants. -/
def sampleOppNeg : Opportunity := ⟨sampleSel, 0, 5, 0, "BACK", -8⟩

lemma applyOps_cons (m : BetManager) (op : LedgerOp) (ops : List LedgerOp) :
    applyOps m (op :: ops) = applyOps (applyOp m op) ops := rfl

/-- The strengthened inductive invariant behind the exposure claim:
unique bet ids, non-negative recorded stakes, and the exposure equation
itself. -/
def LedgerInv (m : BetManager) : Prop :=
  (betKeys m.active_bets).Nodup ∧ (∀ p ∈ m.active_bets, 0 ≤ p.2.stake) ∧ exposureInv m

lemma ledgerInv_accept (m : BetManager) (bet_id : String) (opp : Opportunity)
    (hinv : LedgerInv m) (hfresh : lookupBet m.active_bets bet_id = none)
    (hst : 0 ≤ opp.stake) : LedgerInv (m.record_accepted bet_id opp) := by
  obtain ⟨hnd, hnn, hexp⟩ := hinv
  have hrm : removeBet m.active_bets bet_id = m.active_bets :=
    removeBet_of_not_mem _ _ ((lookupBet_eq_none_iff _ _).mp hfresh)
  refine ⟨?_, ?_, ?_⟩
  · exact nodup_betKeys_insertBet _ _ _ hnd
  · intro p hp
    rcases mem_insertBet _ _ _ _ hp with hc | hc
    · exact hnn p hc
    · rw [hc]
      exact hst
  · show m.current_exposure + opp.stake = stakesSum (insertBet m.active_bets bet_id _)
    rw [insertBet, hrm, stakesSum_append, hexp]
    simp [stakesSum]

lemma ledgerInv_settle (m : BetManager) (bet_id status : String) (payout : ℚ)
    (hinv : LedgerInv m) : LedgerInv (m.process_settlement bet_id status payout).2 := by
  obtain ⟨hnd, hnn, hexp⟩ := hinv
  cases hl : lookupBet m.active_bets bet_id with
  | none =>
    simp only [BetManager.process_settlement, hl]
    exact ⟨hnd, hnn, hexp⟩
  | some r =>
    have hsum := stakesSum_removeBet_eq m.active_bets bet_id r hnd hl
    have hnn2 : ∀ p ∈ removeBet m.active_bets bet_id, 0 ≤ p.2.stake :=
      fun p hp => hnn p (mem_removeBet _ _ _ hp)
    have hrem : 0 ≤ stakesSum (removeBet m.active_bets bet_id) := stakesSum_nonneg _ hnn2
    have hmax : max 0 (m.current_exposure - r.stake) =
        stakesSum (removeBet m.active_bets bet_id) := by
      rw [exposureInv] at hexp
      rw [hexp, hsum]
      rw [max_eq_right] <;> linarith
    simp only [BetManager.process_settlement, hl]
    refine ⟨?_, hnn2, ?_⟩
    · exact (betKeys_removeBet_sublist _ _).nodup hnd
    · show max 0 (m.current_exposure - r.stake) = stakesSum (removeBet m.active_bets bet_id)
      exact hmax

lemma ledgerInv_clear (m : BetManager) (c : ClearedOrder)
    (hinv : LedgerInv m) : LedgerInv (m.process_cleared_order c).2 := by
  obtain ⟨hnd, hnn, hexp⟩ := hinv
  cases hl : lookupBet m.active_bets c.betId with
  | none =>
    simp only [BetManager.process_cleared_order, hl]
    exact ⟨hnd, hnn, hexp⟩
  | some r =>
    have hsum := stakesSum_removeBet_eq m.active_bets c.betId r hnd hl
    have hnn2 : ∀ p ∈ removeBet m.active_bets c.betId, 0 ≤ p.2.stake :=
      fun p hp => hnn p (mem_removeBet _ _ _ hp)
    have hrem : 0 ≤ stakesSum (removeBet m.active_bets c.betId) := stakesSum_nonneg _ hnn2
    have hmax : max 0 (m.current_exposure - r.stake) =
        stakesSum (removeBet m.active_bets c.betId) := by
      rw [exposureInv] at hexp
      rw [hexp, hsum]
      rw [max_eq_right] <;> linarith
    simp only [BetManager.process_cleared_order, hl]
    refine ⟨?_, hnn2, ?_⟩
    · exact (betKeys_removeBet_sublist _ _).nodup hnd
    · show max 0 (m.current_exposure - r.stake) = stakesSum (removeBet m.active_bets c.betId)
      exact hmax

lemma ledgerInv_run (ops : List LedgerOp) :
    ∀ m, LedgerInv m → SafeRun m ops → LedgerInv (applyOps m ops) := by
  induction ops with
  | nil =>
    intro m h _
    simpa [applyOps] using h
  | cons op rest ih =>
    intro m h hsafe
    simp only [SafeRun] at hsafe
    obtain ⟨hop, hrest⟩ := hsafe
    have hnext : LedgerInv (applyOp m op) := by
      cases op with
      | accept bet_id opp => exact ledgerInv_accept m bet_id opp h hop.1 hop.2
      | settle bet_id status payout => exact ledgerInv_settle m bet_id status payout h
      | clear c => exact ledgerInv_clear m c h
    rw [applyOps_cons]
    exact ih _ hnext hrest

/-- The accounting inductive invariant behind the implicit claim:
unique ids, non-negative stakes, exposure dominating the live-stake sum
(so the max-0 floor never bites), and the balance identity itself. -/
def AcctInv (B0 : ℚ) (m : BetManager) : Prop :=
  (betKeys m.active_bets).Nodup ∧ (∀ p ∈ m.active_bets, 0 ≤ p.2.stake) ∧
  stakesSum m.active_bets ≤ m.current_exposure ∧
  m.balance + m.current_exposure - m.pnl = B0

lemma acctInv_accept (B0 : ℚ) (m : BetManager) (bet_id : String) (opp : Opportunity)
    (hinv : AcctInv B0 m) (hst : 0 ≤ opp.stake) :
    AcctInv B0 (m.record_accepted bet_id opp) := by
  obtain ⟨hnd, hnn, hle, hid⟩ := hinv
  refine ⟨nodup_betKeys_insertBet _ _ _ hnd, ?_, ?_, ?_⟩
  · intro p hp
    rcases mem_insertBet _ _ _ _ hp with hc | hc
    · exact hnn p hc
    · rw [hc]
      exact hst
  · show stakesSum (insertBet m.active_bets bet_id _) ≤ m.current_exposure + opp.stake
    rw [insertBet, stakesSum_append]
    have := stakesSum_removeBet_le m.active_bets bet_id hnn
    simp only [stakesSum, List.map_cons, List.map_nil, List.sum_cons, List.sum_nil] at this hle ⊢
    linarith
  · show m.balance - opp.stake + (m.current_exposure + opp.stake) - m.pnl = B0
    linarith

lemma acctInv_settle (B0 : ℚ) (m : BetManager) (bet_id status : String) (payout : ℚ)
    (hinv : AcctInv B0 m) : AcctInv B0 (m.process_settlement bet_id status payout).2 := by
  obtain ⟨hnd, hnn, hle, hid⟩ := hinv
  cases hl : lookupBet m.active_bets bet_id with
  | none =>
    simp only [BetManager.process_settlement, hl]
    exact ⟨hnd, hnn, hle, hid⟩
  | some r =>
    have hsum := stakesSum_removeBet_eq m.active_bets bet_id r hnd hl
    have hnn2 : ∀ p ∈ removeBet m.active_bets bet_id, 0 ≤ p.2.stake :=
      fun p hp => hnn p (mem_removeBet _ _ _ hp)
    have hrem : 0 ≤ stakesSum (removeBet m.active_bets bet_id) := stakesSum_nonneg _ hnn2
    have hmax : max 0 (m.current_exposure - r.stake) = m.current_exposure - r.stake := by
      rw [max_eq_right]
      linarith
    simp only [BetManager.process_settlement, hl]
    refine ⟨(betKeys_removeBet_sublist _ _).nodup hnd, hnn2, ?_, ?_⟩
    · show stakesSum (removeBet m.active_bets bet_id) ≤ max 0 (m.current_exposure - r.stake)
      rw [hmax]
      linarith
    · show (if status = "WON" then (m.balance + r.stake + payout, payout)
          else (m.balance, -r.stake)).1 + max 0 (m.current_exposure - r.stake) -
          (m.pnl + (if status = "WON" then (m.balance + r.stake + payout, payout)
            else (m.balance, -r.stake)).2) = B0
      rw [hmax]
      by_cases hw : status = "WON" <;> simp only [hw, if_true, if_false] <;> ring_nf <;> linarith

lemma acctInv_clear (B0 : ℚ) (m : BetManager) (c : ClearedOrder)
    (hinv : AcctInv B0 m) : AcctInv B0 (m.process_cleared_order c).2 := by
  obtain ⟨hnd, hnn, hle, hid⟩ := hinv
  cases hl : lookupBet m.active_bets c.betId with
  | none =>
    simp only [BetManager.process_cleared_order, hl]
    exact ⟨hnd, hnn, hle, hid⟩
  | some r =>
    have hsum := stakesSum_removeBet_eq m.active_bets c.betId r hnd hl
    have hnn2 : ∀ p ∈ removeBet m.active_bets c.betId, 0 ≤ p.2.stake :=
      fun p hp => hnn p (mem_removeBet _ _ _ hp)
    have hrem : 0 ≤ stakesSum (removeBet m.active_bets c.betId) := stakesSum_nonneg _ hnn2
    have hmax : max 0 (m.current_exposure - r.stake) = m.current_exposure - r.stake := by
      rw [max_eq_right]
      linarith
    simp only [BetManager.process_cleared_order, hl]
    refine ⟨(betKeys_removeBet_sublist _ _).nodup hnd, hnn2, ?_, ?_⟩
    · show stakesSum (removeBet m.active_bets c.betId) ≤ max 0 (m.current_exposure - r.stake)
      rw [hmax]
      linarith
    · rw [hmax]
      cases hp : c.profit with
      | some p =>
        simp only [hp]
        by_cases hcz : c.commissionPaid.getD 0 ≠ 0
        · rw [if_pos hcz]
          dsimp only
          linarith
        · rw [if_neg hcz]
          dsimp only
          linarith
      | none =>
        simp only [hp]
        by_cases hw : clearedOutcome c = some "WON"
        · rw [if_pos hw]
          by_cases hcz : c.commissionPaid.getD 0 ≠ 0
          · rw [if_pos hcz]
            dsimp only
            linarith
          · rw [if_neg hcz]
            dsimp only
            linarith
        · rw [if_neg hw]
          by_cases hcz : c.commissionPaid.getD 0 ≠ 0
          · rw [if_pos hcz]
            dsimp only
            linarith
          · rw [if_neg hcz]
            dsimp only
            linarith

lemma acctInv_run (B0 : ℚ) (ops : List LedgerOp) :
    ∀ m, AcctInv B0 m → (∀ op ∈ ops, acceptNonneg op) → AcctInv B0 (applyOps m ops) := by
  induction ops with
  | nil =>
    intro m h _
    simpa [applyOps] using h
  | cons op rest ih =>
    intro m h hops
    have hnext : AcctInv B0 (applyOp m op) := by
      cases op with
      | accept bet_id opp =>
        exact acctInv_accept B0 m bet_id opp h (hops _ (List.mem_cons_self _ _))
      | settle bet_id status payout => exact acctInv_settle B0 m bet_id status payout h
      | clear c => exact acctInv_clear B0 m c h
    rw [applyOps_cons]
    exact ih _ hnext fun op2 hop2 => hops op2 (List.mem_cons_of_mem _ hop2)

/-- The balance of the end-to-end scenario after acceptance: balance
1000, max_exposure 1000*0.1, BACK stake 31.25 at price 5 recorded under
bet id B1. -/
def scenarioOpp : Opportunity := ⟨sampleSel, 0.3, 5, 0.075, "BACK", 31.25⟩

/-- The scenario ledger right after record_accepted. -/
def scenarioAccepted : BetManager :=
  (BetManager.init 1000 (1000 * 0.1)).record_accepted "B1" scenarioOpp

/-- The scenario ledger and returned profit after the WON settlement
with payout 125. -/
def scenarioSettled : Option ℚ × BetManager :=
  scenarioAccepted.process_settlement "B1" "WON" 125

/-- C1 counterexample: two record_accepted calls with the same bet id
"a" and stake 10 leave current_exposure at 20 while only one bet record
of stake 10 is active, so the exposure invariant fails for an
unrestricted operation sequence. -/
theorem exposure_invariant_cex :
    ¬ exposureInv (applyOps (BetManager.init 100 1000)
        [.accept "a" sampleOpp, .accept "a" sampleOpp]) := by
  intro h
  rw [exposureInv] at h
  simp [applyOps, applyOp, BetManager.record_accepted, BetManager.init,
    insertBet, removeBet, sampleOpp, sampleSel, stakesSum] at h

/-- C1 (amended): after any sequence of record_accepted, settlement and
cleared-order calls on a freshly constructed BetManager in which every
record_accepted uses a bet id that is not currently active and a
non-negative stake, current_exposure equals the sum of the stakes of
the currently-active bet records. -/
theorem exposure_invariant_safe_runs (b mx : ℚ) (ops : List LedgerOp)
    (hsafe : SafeRun (BetManager.init b mx) ops) :
    exposureInv (applyOps (BetManager.init b mx) ops) := by
  have h0 : LedgerInv (BetManager.init b mx) := by
    refine ⟨?_, ?_, ?_⟩
    · simp [betKeys, BetManager.init]
    · simp [BetManager.init]
    · simp [exposureInv, BetManager.init, stakesSum]
  exact (ledgerInv_run ops _ h0 hsafe).2.2

/-- C1 witness: the amended invariant applied to the concrete safe run
of one acceptance followed by its settlement. -/
theorem exposure_invariant_safe_runs_witness :
    SafeRun (BetManager.init 100 1000) [.accept "a" sampleOpp, .settle "a" "WON" 40] ∧
    exposureInv (applyOps (BetManager.init 100 1000)
      [.accept "a" sampleOpp, .settle "a" "WON" 40]) :=
  ⟨by decide, exposure_invariant_safe_runs 100 1000 _ (by decide)⟩

/-- C10 counterexample: with initial balance 100, accepting stake 10
under "a" and stake -8 under "b" and then settling "a" as LOST leaves
balance 98, exposure 0 (the max-0 floor clips the update) and pnl -10,
so balance + current_exposure - pnl is 108, not the initial 100. -/
theorem accounting_identity_cex :
    ¬ ((applyOps (BetManager.init 100 1000)
          [.accept "a" sampleOpp, .accept "b" sampleOppNeg, .settle "a" "LOST" 0]).balance +
        (applyOps (BetManager.init 100 1000)
          [.accept "a" sampleOpp, .accept "b" sampleOppNeg, .settle "a" "LOST" 0]).current_exposure -
        (applyOps (BetManager.init 100 1000)
          [.accept "a" sampleOpp, .accept "b" sampleOppNeg, .settle "a" "LOST" 0]).pnl = 100) := by
  intro h
  simp [applyOps, applyOp, BetManager.record_accepted, BetManager.init,
    BetManager.process_settlement, lookupBet, insertBet, removeBet, sampleOpp, sampleOppNeg,
    sampleSel] at h
  norm_num at h

/-- C10 (amended): for every sequence of record_accepted,
process_settlement and process_cleared_order operations whose accepted
stakes are all non-negative, starting from a BetManager with initial
balance B0, balance + current_exposure - pnl equals B0 after the
sequence. -/
theorem accounting_identity_nonneg (B0 mx : ℚ) (ops : List LedgerOp)
    (h : ∀ op ∈ ops, acceptNonneg op) :
    (applyOps (BetManager.init B0 mx) ops).balance +
      (applyOps (BetManager.init B0 mx) ops).current_exposure -
      (applyOps (BetManager.init B0 mx) ops).pnl = B0 := by
  have h0 : AcctInv B0 (BetManager.init B0 mx) := by
    refine ⟨?_, ?_, ?_, ?_⟩
    · simp [betKeys, BetManager.init]
    · simp [BetManager.init]
    · simp [BetManager.init, stakesSum]
    · simp [BetManager.init]
  exact (acctInv_run B0 ops _ h0 h).2.2.2

/-- C10 witness: the accounting identity applied to the concrete
non-negative run of one acceptance followed by its settlement. -/
theorem accounting_identity_nonneg_witness :
    (∀ op ∈ ([.accept "a" sampleOpp, .settle "a" "WON" 40] : List LedgerOp), acceptNonneg op) ∧
    (applyOps (BetManager.init 100 1000) [.accept "a" sampleOpp, .settle "a" "WON" 40]).balance +
      (applyOps (BetManager.init 100 1000) [.accept "a" sampleOpp, .settle "a" "WON" 40]).current_exposure -
      (applyOps (BetManager.init 100 1000) [.accept "a" sampleOpp, .settle "a" "WON" 40]).pnl = 100 :=
  ⟨by decide, accounting_identity_nonneg 100 1000 _ (by decide)⟩

lemma process_settlement_noop (m : BetManager) (bet_id status : String) (payout : ℚ)
    (h : lookupBet m.active_bets bet_id = none) :
    m.process_settlement bet_id status payout = (none, m) := by
  simp [BetManager.process_settlement, h]

lemma process_cleared_order_noop (m : BetManager) (c : ClearedOrder)
    (h : lookupBet m.active_bets c.betId = none) :
    m.process_cleared_order c = (none, m) := by
  simp [BetManager.process_cleared_order, h]

/-- C2: a settlement for an active bet id returns a profit and removes
the record, so a second settlement call with the same id returns None
and leaves the whole ledger state unchanged; and any settlement or
cleared-order call whose bet id has no active record is a no-op
returning None. -/
theorem settlement_idempotence_unknown_noop :
    (∀ (m : BetManager) (bet_id status : String) (payout : ℚ),
        (lookupBet m.active_bets bet_id).isSome = true →
        ((m.process_settlement bet_id status payout).1.isSome = true ∧
         ∀ (status2 : String) (payout2 : ℚ),
           (m.process_settlement bet_id status payout).2.process_settlement bet_id status2 payout2 =
             (none, (m.process_settlement bet_id status payout).2))) ∧
    (∀ (m : BetManager) (bet_id status : String) (payout : ℚ),
        lookupBet m.active_bets bet_id = none →
        m.process_settlement bet_id status payout = (none, m)) ∧
    (∀ (m : BetManager) (c : ClearedOrder),
        lookupBet m.active_bets c.betId = none →
        m.process_cleared_order c = (none, m)) := by
  refine ⟨?_, ?_, ?_⟩
  · intro m bet_id status payout h
    rw [Option.isSome_iff_exists] at h
    obtain ⟨r, hr⟩ := h
    constructor
    · simp [BetManager.process_settlement, hr]
    · intro status2 payout2
      have h2 : lookupBet (m.process_settlement bet_id status payout).2.active_bets bet_id = none := by
        simp only [BetManager.process_settlement, hr]
        exact lookupBet_removeBet m.active_bets bet_id
      exact process_settlement_noop _ _ _ _ h2
  · intro m bet_id status payout h
    exact process_settlement_noop _ _ _ _ h
  · intro m c h
    exact process_cleared_order_noop _ _ h

/-- C2 witness: the idempotence theorem applied to the concrete manager
holding active bet "a". -/
theorem settlement_idempotence_witness :
    (lookupBet sampleManager.active_bets "a").isSome = true ∧
    (sampleManager.process_settlement "a" "WON" 40).1.isSome = true :=
  ⟨by decide,
   (settlement_idempotence_unknown_noop.1 sampleManager "a" "WON" 40 (by decide)).1⟩

/-- C9: for an active bet, a cleared order with an explicit profit p
credits balance by stake + p and returns p; without a profit field a
WON outcome derives the payout stake*(price-1), credits balance by
stake plus that payout and returns it, and any other outcome returns
-stake with no balance credit; in every case the commissionPaid amount
(default 0) is subtracted from both the balance and the returned
profit after the credit. -/
theorem cleared_order_profit_commission (m : BetManager) (c : ClearedOrder)
    (r : BetRecordEntry) (hl : lookupBet m.active_bets c.betId = some r) :
    (∀ p, c.profit = some p →
        (m.process_cleared_order c).1 = some (p - c.commissionPaid.getD 0) ∧
        (m.process_cleared_order c).2.balance =
          m.balance + r.stake + p - c.commissionPaid.getD 0) ∧
    (c.profit = none → clearedOutcome c = some "WON" →
        (m.process_cleared_order c).1 =
          some (r.stake * (r.price - 1) - c.commissionPaid.getD 0) ∧
        (m.process_cleared_order c).2.balance =
          m.balance + r.stake + r.stake * (r.price - 1) - c.commissionPaid.getD 0) ∧
    (c.profit = none → clearedOutcome c ≠ some "WON" →
        (m.process_cleared_order c).1 = some (-r.stake - c.commissionPaid.getD 0) ∧
        (m.process_cleared_order c).2.balance = m.balance - c.commissionPaid.getD 0) := by
  refine ⟨?_, ?_, ?_⟩
  · intro p hp
    simp only [BetManager.process_cleared_order, hl, hp]
    by_cases hcz : c.commissionPaid.getD 0 ≠ 0
    · rw [if_pos hcz]
      exact ⟨rfl, rfl⟩
    · rw [if_neg hcz]
      have hc0 : c.commissionPaid.getD 0 = 0 := not_not.mp hcz
      rw [hc0, sub_zero, sub_zero]
      exact ⟨rfl, rfl⟩
  · intro hp hw
    simp only [BetManager.process_cleared_order, hl, hp, if_pos hw]
    by_cases hcz : c.commissionPaid.getD 0 ≠ 0
    · rw [if_pos hcz]
      exact ⟨rfl, rfl⟩
    · rw [if_neg hcz]
      have hc0 : c.commissionPaid.getD 0 = 0 := not_not.mp hcz
      rw [hc0, sub_zero, sub_zero]
      exact ⟨rfl, rfl⟩
  · intro hp hw
    simp only [BetManager.process_cleared_order, hl, hp, if_neg hw]
    by_cases hcz : c.commissionPaid.getD 0 ≠ 0
    · rw [if_pos hcz]
      exact ⟨rfl, rfl⟩
    · rw [if_neg hcz]
      have hc0 : c.commissionPaid.getD 0 = 0 := not_not.mp hcz
      rw [hc0, sub_zero, sub_zero]
      exact ⟨rfl, rfl⟩

/-- C9 witness: the cleared-order theorem applied to the concrete
cleared order for bet "a" carrying explicit profit 40 and no
commission. -/
theorem cleared_order_profit_commission_witness :
    lookupBet sampleManager.active_bets "a" = some ⟨sampleOpp, 10, 5⟩ ∧
    sampleCleared.profit = some 40 ∧
    (sampleManager.process_cleared_order sampleCleared).1 =
      some (40 - sampleCleared.commissionPaid.getD 0) :=
  ⟨by decide, by decide,
   ((cleared_order_profit_commission sampleManager sampleCleared ⟨sampleOpp, 10, 5⟩
      (by decide)).1 40 (by decide)).1⟩

/-- C7: the end-to-end scenario: BACK at price 5 with true probability
0.3 and min edge 0.05 gives edge 0.075 and qualifies; kelly sizing with
shrink 0.25 over balance 1000 returns 31.25; record_accepted leaves
balance 968.75 and exposure 31.25; the WON settlement with payout 125
returns profit 125 and leaves balance 1125, exposure 0 and pnl 125. -/
theorem end_to_end_scenario :
    evaluate sampleSel 0.3 5 "BACK" 0.05 = (true, 0.075) ∧
    size_stake 1000 0.1 0.075 (some 5) (some 0.3) "kelly" 0.25 0.10 = 31.25 ∧
    scenarioAccepted.balance = 968.75 ∧
    scenarioAccepted.current_exposure = 31.25 ∧
    scenarioSettled.1 = some 125 ∧
    scenarioSettled.2.balance = 1125 ∧
    scenarioSettled.2.current_exposure = 0 ∧
    scenarioSettled.2.pnl = 125 := by
  refine ⟨?_, ?_, ?_, ?_, ?_, ?_, ?_, ?_⟩
  · simp [evaluate, COMMISSION]
    norm_num
  · simp [size_stake]
    norm_num [max_def, min_def]
  · simp [scenarioAccepted, BetManager.record_accepted, BetManager.init, scenarioOpp]
    norm_num
  · simp [scenarioAccepted, BetManager.record_accepted, BetManager.init, scenarioOpp]
    try norm_num
  · simp [scenarioSettled, scenarioAccepted, BetManager.record_accepted,
      BetManager.init, scenarioOpp, BetManager.process_settlement, insertBet, removeBet,
      lookupBet, sampleSel]
    try norm_num
  · simp [scenarioSettled, scenarioAccepted, BetManager.record_accepted,
      BetManager.init, scenarioOpp, BetManager.process_settlement, insertBet, removeBet,
      lookupBet, sampleSel]
    try norm_num
  · simp [scenarioSettled, scenarioAccepted, BetManager.record_accepted,
      BetManager.init, scenarioOpp, BetManager.process_settlement, insertBet, removeBet,
      lookupBet, sampleSel]
    try norm_num
  · simp [scenarioSettled, scenarioAccepted, BetManager.record_accepted,
      BetManager.init, scenarioOpp, BetManager.process_settlement, insertBet, removeBet,
      lookupBet, sampleSel]
    try norm_num

lemma mem_reconcileStep (a : String) (acc : BetManager × List String × Option ℕ)
    (c : ClearedOrder) (h : a ∈ acc.2.1) : a ∈ (reconcileStep acc c).2.1 := by
  unfold reconcileStep
  by_cases hm : c.betId ∈ acc.2.1
  · rw [if_pos hm]
    exact h
  · rw [if_neg hm]
    exact List.mem_append_left _ h

lemma foldl_reconcileStep_skip (c : ClearedOrder) (L : List ClearedOrder) :
    ∀ (acc : BetManager × List String × Option ℕ), c.betId ∈ acc.2.1 →
    L.foldl reconcileStep acc =
      (L.filter (fun d => d.betId ≠ c.betId)).foldl reconcileStep acc := by
  induction L with
  | nil =>
    intro acc _
    rfl
  | cons d L ih =>
    intro acc h
    by_cases hd : d.betId = c.betId
    · have hskip : reconcileStep acc d = acc := by
        unfold reconcileStep
        rw [if_pos (hd ▸ h)]
      have hfilter : (d :: L).filter (fun e => e.betId ≠ c.betId) =
          L.filter (fun e => e.betId ≠ c.betId) := by
        simp [List.filter_cons, hd]
      rw [List.foldl_cons, hskip, hfilter]
      exact ih acc h
    · have hfilter : (d :: L).filter (fun e => e.betId ≠ c.betId) =
          d :: L.filter (fun e => e.betId ≠ c.betId) := by
        simp [List.filter_cons, hd]
      rw [hfilter, List.foldl_cons, List.foldl_cons]
      exact ih (reconcileStep acc d) (mem_reconcileStep _ _ _ h)

/-- C5: reconciliation deduplicates by bet id.  A first reconcile call
on a batch holding one unprocessed cleared order applies exactly its
ledger effect and records its id in processed_bet_ids (the id is
appended last, so it survives the max_processed trim); and any later
reconcile call whose incoming state already holds the id behaves
exactly as if every occurrence of that id had been removed from the
batch — the duplicate's ledger effect is applied exactly once,
regardless of how the query windows overlap. -/
theorem reconcile_dedup (m0 : BetManager) (st0 : RecState) (mp : ℕ) (c : ClearedOrder)
    (h0 : c.betId ∉ st0.processed_bet_ids) :
    ((reconcileOrders [c] m0 st0 mp).1 = (m0.process_cleared_order c).2 ∧
     c.betId ∈ (reconcileOrders [c] m0 st0 mp).2.processed_bet_ids) ∧
    ∀ (m1 : BetManager) (st1 : RecState) (L2 : List ClearedOrder),
      c.betId ∈ st1.processed_bet_ids →
      reconcileOrders L2 m1 st1 mp =
        reconcileOrders (L2.filter (fun d => d.betId ≠ c.betId)) m1 st1 mp := by
  constructor
  · constructor
    · simp [reconcileOrders, reconcileStep, h0]
    · simp only [reconcileOrders, List.foldl_cons, List.foldl_nil]
      rw [reconcileStep, if_neg h0]
      by_cases hcond : 0 < mp ∧ mp <
          ((m0.process_cleared_order c).2, st0.processed_bet_ids ++ [c.betId],
            (match c.settledDate with
             | none => (none : Option ℕ)
             | some t => some t)).2.1.length
      · rw [if_pos hcond]
        have hlen : (st0.processed_bet_ids ++ [c.betId]).length =
            st0.processed_bet_ids.length + 1 := by
          simp
        have hle : (st0.processed_bet_ids ++ [c.betId]).length - mp ≤
            st0.processed_bet_ids.length := by
          omega
        rw [List.drop_append_eq_append_drop]
        refine List.mem_append_right _ ?_
        have hz : (st0.processed_bet_ids ++ [c.betId]).length - mp -
            st0.processed_bet_ids.length = 0 := by
          omega
        rw [hz]
        simp
      · rw [if_neg hcond]
        exact List.mem_append_right _ (List.mem_singleton.mpr rfl)
  · intro m1 st1 L2 h
    unfold reconcileOrders
    rw [foldl_reconcileStep_skip c L2 (m1, st1.processed_bet_ids, none) h]

/-- C5 witness: the dedup theorem applied to the concrete cleared order
"a" against an empty processed-ids state. -/
theorem reconcile_dedup_witness :
    sampleCleared.betId ∉ (RecState.mk none []).processed_bet_ids ∧
    (reconcileOrders [sampleCleared] sampleManager ⟨none, []⟩ 5).1 =
      (sampleManager.process_cleared_order sampleCleared).2 :=
  ⟨by decide, ((reconcile_dedup sampleManager ⟨none, []⟩ 5 sampleCleared (by decide)).1).1⟩

/-- A near-empty shoe: three cards of rank 1, used by witnesses. -/
def shoeThree : ShoeState := ⟨0, 3, fun r => if r = 1 then 3 else 0⟩

/-- A four-card shoe of rank 1, used by witnesses. -/
def shoeFour : ShoeState := ⟨0, 4, fun r => if r = 1 then 4 else 0⟩

lemma le_sum_of_mem (l : List ℕ) (f : ℕ → ℕ) (r : ℕ) (h : r ∈ l) :
    f r ≤ (l.map f).sum := by
  induction l with
  | nil => simp at h
  | cons a l ih =>
    rcases List.mem_cons.mp h with hc | hc
    · subst hc
      simp only [List.map_cons, List.sum_cons]
      omega
    · have := ih hc
      simp only [List.map_cons, List.sum_cons]
      omega

lemma map_decCount_of_not_mem (l : List ℕ) (counts : ℕ → ℕ) (r : ℕ) (h : r ∉ l) :
    l.map (decCount counts r) = l.map counts := by
  induction l with
  | nil => rfl
  | cons a l ih =>
    simp only [List.mem_cons] at h
    push_neg at h
    have ha : decCount counts r a = counts a := by
      unfold decCount
      rw [if_neg (Ne.symm h.1)]
    simp only [List.map_cons, ha, ih h.2]

lemma sum_map_decCount (l : List ℕ) (counts : ℕ → ℕ) (r : ℕ) (hnd : l.Nodup)
    (hr : r ∈ l) (h1 : 1 ≤ counts r) :
    (l.map (decCount counts r)).sum + 1 = (l.map counts).sum := by
  induction l with
  | nil => simp at hr
  | cons a l ih =>
    simp only [List.nodup_cons] at hnd
    rcases List.mem_cons.mp hr with hc | hc
    · subst hc
      have hd : decCount counts r r = counts r - 1 := by
        unfold decCount
        rw [if_pos rfl]
      simp only [List.map_cons, List.sum_cons, hd,
        map_decCount_of_not_mem l counts r hnd.1]
      omega
    · have ha : a ≠ r := fun hc2 => hnd.1 (hc2 ▸ hc)
      have hd : decCount counts r a = counts a := by
        unfold decCount
        rw [if_neg ha]
      have := ih hnd.2 hc
      simp only [List.map_cons, List.sum_cons, hd]
      omega

lemma ranks_nodup : ranks.Nodup := by
  unfold ranks
  exact List.nodup_range' 1 13

lemma countsSum_decCount (counts : ℕ → ℕ) (r : ℕ) (hr : r ∈ ranks)
    (h1 : 1 ≤ counts r) : countsSum (decCount counts r) + 1 = countsSum counts :=
  sum_map_decCount ranks counts r ranks_nodup hr h1

lemma counts_zero_of_countsSum_zero (counts : ℕ → ℕ) (h : countsSum counts = 0)
    (r : ℕ) (hr : r ∈ ranks) : counts r = 0 := by
  have := le_sum_of_mem ranks counts r hr
  unfold countsSum at h
  omega

lemma enumLevel_zero (next : (ℕ → ℕ) → ℕ → List ℕ → Option ℚ) (rs : List ℕ)
    (counts : ℕ → ℕ) (n : ℕ) (picked : List ℕ) (h : ∀ r ∈ rs, counts r = 0) :
    enumLevel next rs counts n picked = some 0 := by
  induction rs with
  | nil => rfl
  | cons r rs ih =>
    simp only [enumLevel, h r (List.mem_cons_self _ _), if_true]
    exact ih fun a ha => h a (List.mem_cons_of_mem _ ha)

lemma enumLevel_cons_eq (next : (ℕ → ℕ) → ℕ → List ℕ → Option ℚ) (rs : List ℕ)
    (r : ℕ) (counts : ℕ → ℕ) (n : ℕ) (picked : List ℕ) (s w : ℚ)
    (h0 : ¬ counts r = 0) (hn : ¬ n = 0)
    (hs : next (decCount counts r) (n - 1) (picked ++ [r]) = some s)
    (hw : enumLevel next rs counts n picked = some w) :
    enumLevel next (r :: rs) counts n picked =
      some ((counts r : ℚ) / (n : ℚ) * s + w) := by
  simp only [enumLevel, h0, if_false, hn, hs, hw]

lemma enumLevel_bound (next : (ℕ → ℕ) → ℕ → List ℕ → Option ℚ)
    (hnext : ∀ counts n picked, countsSum counts = n →
      ∃ v, next counts n picked = some v ∧ 0 ≤ v ∧ v ≤ 1) :
    ∀ (rs : List ℕ), (∀ r ∈ rs, r ∈ ranks) →
    ∀ (counts : ℕ → ℕ) (n : ℕ) (picked : List ℕ), countsSum counts = n →
    ∃ v, enumLevel next rs counts n picked = some v ∧ 0 ≤ v ∧
      v * (n : ℚ) ≤ ((rs.map counts).sum : ℚ) := by
  intro rs
  induction rs with
  | nil =>
    intro _ counts n picked _
    exact ⟨0, rfl, le_refl 0, by simp⟩
  | cons r rs ih =>
    intro hrs counts n picked hsum
    have hrs2 : ∀ a ∈ rs, a ∈ ranks := fun a ha => hrs a (List.mem_cons_of_mem _ ha)
    by_cases h0 : counts r = 0
    · obtain ⟨v, hv, hv0, hvb⟩ := ih hrs2 counts n picked hsum
      refine ⟨v, ?_, hv0, ?_⟩
      · simp only [enumLevel, h0, if_true]
        exact hv
      · simp only [List.map_cons, List.sum_cons, h0]
        push_cast
        push_cast at hvb
        linarith
    · have hr : r ∈ ranks := hrs r (List.mem_cons_self _ _)
      have hcle : counts r ≤ n := hsum ▸ le_sum_of_mem ranks counts r hr
      have h1 : 1 ≤ counts r := Nat.one_le_iff_ne_zero.mpr h0
      have hn : ¬ n = 0 := by omega
      have hsum2 : countsSum (decCount counts r) = n - 1 := by
        have := countsSum_decCount counts r hr h1
        omega
      obtain ⟨s, hs, hs0, hs1⟩ := hnext (decCount counts r) (n - 1) (picked ++ [r]) hsum2
      obtain ⟨w, hw, hw0, hwb⟩ := ih hrs2 counts n picked hsum
      have hnq : (0 : ℚ) < (n : ℚ) := by
        exact_mod_cast Nat.pos_of_ne_zero hn
      refine ⟨(counts r : ℚ) / (n : ℚ) * s + w, ?_, ?_, ?_⟩
      · exact enumLevel_cons_eq next rs r counts n picked s w h0 hn hs hw
      · have : (0 : ℚ) ≤ (counts r : ℚ) / (n : ℚ) * s :=
          mul_nonneg (div_nonneg (Nat.cast_nonneg _) (le_of_lt hnq)) hs0
        linarith
      · have hexp : ((counts r : ℚ) / (n : ℚ) * s + w) * (n : ℚ) =
            (counts r : ℚ) * s + w * (n : ℚ) := by
          field_simp
        rw [hexp]
        have h2 : (counts r : ℚ) * s ≤ (counts r : ℚ) := by
          calc (counts r : ℚ) * s ≤ (counts r : ℚ) * 1 :=
                mul_le_mul_of_nonneg_left hs1 (Nat.cast_nonneg _)
            _ = (counts r : ℚ) := mul_one _
        simp only [List.map_cons, List.sum_cons]
        push_cast
        push_cast at hwb
        linarith

lemma enumAux_ok (pred : List ℕ → Bool) :
    ∀ (d : ℕ) (counts : ℕ → ℕ) (n : ℕ) (picked : List ℕ), countsSum counts = n →
    ∃ v, enumAux pred d counts n picked = some v ∧ 0 ≤ v ∧ v ≤ 1 := by
  intro d
  induction d with
  | zero =>
    intro counts n picked _
    by_cases hp : pred picked = true
    · exact ⟨1, by simp [enumAux, hp], by norm_num, le_refl 1⟩
    · exact ⟨0, by simp [enumAux, hp], le_refl 0, by norm_num⟩
  | succ d ih =>
    intro counts n picked hsum
    by_cases hn : n = 0
    · refine ⟨0, ?_, le_refl 0, by norm_num⟩
      simp only [enumAux]
      exact enumLevel_zero _ _ _ _ _ fun r hr =>
        counts_zero_of_countsSum_zero counts (hn ▸ hsum) r hr
    · obtain ⟨v, hv, hv0, hvb⟩ :=
        enumLevel_bound (enumAux pred d) ih ranks (fun r hr => hr) counts n picked hsum
      refine ⟨v, by simpa [enumAux] using hv, hv0, ?_⟩
      have hnq : (0 : ℚ) < (n : ℚ) := by
        exact_mod_cast Nat.pos_of_ne_zero hn
      have hle : v * (n : ℚ) ≤ 1 * (n : ℚ) := by
        rw [one_mul]
        calc v * (n : ℚ) ≤ ((ranks.map counts).sum : ℚ) := hvb
          _ = (n : ℚ) := by
              rw [← hsum]
              rfl
      exact le_of_mul_le_mul_right hle hnq

lemma enumLevel_small (next : (ℕ → ℕ) → ℕ → List ℕ → Option ℚ) (d : ℕ)
    (hnext : ∀ counts n picked, countsSum counts = n → n < d →
      next counts n picked = some 0) :
    ∀ (rs : List ℕ), (∀ r ∈ rs, r ∈ ranks) →
    ∀ (counts : ℕ → ℕ) (n : ℕ) (picked : List ℕ), countsSum counts = n → n < d + 1 →
    enumLevel next rs counts n picked = some 0 := by
  intro rs
  induction rs with
  | nil =>
    intro _ counts n picked _ _
    rfl
  | cons r rs ih =>
    intro hrs counts n picked hsum hlt
    have hrs2 : ∀ a ∈ rs, a ∈ ranks := fun a ha => hrs a (List.mem_cons_of_mem _ ha)
    by_cases h0 : counts r = 0
    · simp only [enumLevel, h0, if_true]
      exact ih hrs2 counts n picked hsum hlt
    · have hr : r ∈ ranks := hrs r (List.mem_cons_self _ _)
      have hcle : counts r ≤ n := hsum ▸ le_sum_of_mem ranks counts r hr
      have h1 : 1 ≤ counts r := Nat.one_le_iff_ne_zero.mpr h0
      have hn : ¬ n = 0 := by omega
      have hsum2 : countsSum (decCount counts r) = n - 1 := by
        have := countsSum_decCount counts r hr h1
        omega
      have hs := hnext (decCount counts r) (n - 1) (picked ++ [r]) hsum2 (by omega)
      have hw := ih hrs2 counts n picked hsum hlt
      rw [enumLevel_cons_eq next rs r counts n picked 0 0 h0 hn hs hw]
      norm_num

lemma enumAux_small (pred : List ℕ → Bool) :
    ∀ (d : ℕ) (counts : ℕ → ℕ) (n : ℕ) (picked : List ℕ), countsSum counts = n →
    n < d → enumAux pred d counts n picked = some 0 := by
  intro d
  induction d with
  | zero =>
    intro counts n picked _ hlt
    omega
  | succ d ih =>
    intro counts n picked hsum hlt
    simp only [enumAux]
    exact enumLevel_small (enumAux pred d) d ih ranks (fun r hr => hr)
      counts n picked hsum hlt

/-- C4: on a consistent shoe with fewer than 4 cards remaining, every
probability function returns exactly 0; a some-result also certifies
that no conditional fraction was taken with a zero or negative
remaining total (the embedding returns none at any such division). -/
theorem near_empty_shoe_zero (shoe : ShoeState)
    (hsum : countsSum shoe.card_counts = shoe.cards_remaining)
    (hlt : shoe.cards_remaining < 4) :
    prob_pocket_pair shoe = some 0 ∧ prob_natural_win shoe = some 0 ∧
    prob_natural_tie shoe = some 0 ∧ prob_highest_hand_nine shoe = some 0 ∧
    prob_highest_hand_odd shoe = some 0 :=
  ⟨enumAux_small pocketPairPred 4 shoe.card_counts shoe.cards_remaining [] hsum hlt,
   enumAux_small naturalWinPred 4 shoe.card_counts shoe.cards_remaining [] hsum hlt,
   enumAux_small naturalTiePred 4 shoe.card_counts shoe.cards_remaining [] hsum hlt,
   enumAux_small highestNinePred 4 shoe.card_counts shoe.cards_remaining [] hsum hlt,
   enumAux_small highestOddPred 4 shoe.card_counts shoe.cards_remaining [] hsum hlt⟩

/-- C4 witness: the near-empty-shoe theorem applied to the concrete
consistent three-card shoe. -/
theorem near_empty_shoe_zero_witness :
    countsSum shoeThree.card_counts = shoeThree.cards_remaining ∧
    shoeThree.cards_remaining < 4 ∧
    prob_pocket_pair shoeThree = some 0 :=
  ⟨by decide, by decide,
   (near_empty_shoe_zero shoeThree (by decide) (by decide)).1⟩

/-- C6: on every valid shoe (per-rank counts summing to the positive
remaining-card total), each of the five probability functions returns a
value, and that value lies in [0,1]. -/
theorem prob_engine_bounds (shoe : ShoeState)
    (hsum : countsSum shoe.card_counts = shoe.cards_remaining)
    (_hpos : 0 < shoe.cards_remaining) :
    (∃ v, prob_pocket_pair shoe = some v ∧ 0 ≤ v ∧ v ≤ 1) ∧
    (∃ v, prob_natural_win shoe = some v ∧ 0 ≤ v ∧ v ≤ 1) ∧
    (∃ v, prob_natural_tie shoe = some v ∧ 0 ≤ v ∧ v ≤ 1) ∧
    (∃ v, prob_highest_hand_nine shoe = some v ∧ 0 ≤ v ∧ v ≤ 1) ∧
    (∃ v, prob_highest_hand_odd shoe = some v ∧ 0 ≤ v ∧ v ≤ 1) :=
  ⟨enumAux_ok pocketPairPred 4 shoe.card_counts shoe.cards_remaining [] hsum,
   enumAux_ok naturalWinPred 4 shoe.card_counts shoe.cards_remaining [] hsum,
   enumAux_ok naturalTiePred 4 shoe.card_counts shoe.cards_remaining [] hsum,
   enumAux_ok highestNinePred 4 shoe.card_counts shoe.cards_remaining [] hsum,
   enumAux_ok highestOddPred 4 shoe.card_counts shoe.cards_remaining [] hsum⟩

/-- C6 witness: the bounds theorem applied to the concrete valid
four-card shoe. -/
theorem prob_engine_bounds_witness :
    countsSum shoeFour.card_counts = shoeFour.cards_remaining ∧
    0 < shoeFour.cards_remaining ∧
    (∃ v, prob_pocket_pair shoeFour = some v ∧ 0 ≤ v ∧ v ≤ 1) :=
  ⟨by decide, by decide,
   (prob_engine_bounds shoeFour (by decide) (by decide)).1⟩

end GambleBot
